import Mathlib

/-!
# Verification of the menu-text line-item normalizer

Shallow embedding of `parse_menu_items` from `src/app.py` (the Line-Item
Normalizer of the specification) together with the batch image-generation
glue (`generate_food_image_prompt`, `generate_image_with_imagen`,
`process_menu_items`).

Strings are modelled as `List Char`; a `String`-level wrapper `normalize`
is provided so the specification's examples can be stated literally.
Python's `\d` and `str.strip()` character classes are modelled over their
ASCII parts, which covers all inputs appearing in the specification.
-/

namespace MenuApp

/-- ASCII part of the character class stripped by Python's `str.strip()`:
space, tab, newline, carriage return, vertical tab, form feed. -/
def pyIsSpace (c : Char) : Bool :=
  c = ' ' || c = '\t' || c = '\n' || c = '\r' || c = '\x0b' || c = '\x0c'

/-- Remove leading characters satisfying `p` (Python `lstrip`). -/
def lstripBy (p : Char → Bool) (s : List Char) : List Char :=
  s.dropWhile p

/-- Remove trailing characters satisfying `p` (Python `rstrip`). -/
def rstripBy (p : Char → Bool) (s : List Char) : List Char :=
  (s.reverse.dropWhile p).reverse

/-- Remove leading and trailing characters satisfying `p`. -/
def stripBy (p : Char → Bool) (s : List Char) : List Char :=
  rstripBy p (lstripBy p s)

/-- Python `str.strip()` (whitespace, ASCII part). -/
def pyStrip (s : List Char) : List Char :=
  stripBy pyIsSpace s

/-- The boundary set of `str.strip(' .-')`: space, period, hyphen. -/
def isStripSetChar (c : Char) : Bool :=
  c = ' ' || c = '.' || c = '-'

/-- Python `str.strip(' .-')`. -/
def stripDotDash (s : List Char) : List Char :=
  stripBy isStripSetChar s

/-- Python `text.split('\n')`: split on every newline; the empty string
splits to `[""]`, a trailing newline yields a trailing empty piece. -/
def splitNl : List Char → List (List Char)
  | [] => [[]]
  | c :: rest =>
    if c = '\n' then [] :: splitNl rest
    else
      match splitNl rest with
      | [] => [[c]]
      | l :: ls => (c :: l) :: ls

/-- One pass of Python `re.sub(r'\d+\.?\d*', '', s)` as a character
automaton.  State 0: scanning (a digit starts a match).  State 1: inside
the `\d+` of a match (a further digit extends it, a period moves to the
`\.?\d*` tail).  State 2: inside the `\.?\d*` tail (digits extend it).
Characters inside a match are dropped; every other character is kept.
After a match ends the next character cannot itself start a new match at
an earlier position, so scanning resumes in state 0. -/
def subNumAux : Nat → List Char → List Char
  | _, [] => []
  | 0, c :: cs =>
    if c.isDigit then subNumAux 1 cs else c :: subNumAux 0 cs
  | 1, c :: cs =>
    if c.isDigit then subNumAux 1 cs
    else if c = '.' then subNumAux 2 cs
    else c :: subNumAux 0 cs
  | _ + 2, c :: cs =>
    if c.isDigit then subNumAux 2 cs else c :: subNumAux 0 cs

/-- Python `re.sub(r'\d+\.?\d*', '', s)`. -/
def subNum (s : List Char) : List Char :=
  subNumAux 0 s

/-- One pass of Python `re.sub(r'\$\d+\.?\d*', '', s)`.  A match starts
only at a `$` immediately followed by a digit; the numeric tail is the
same `\d+\.?\d*` automaton as in `subNumAux` (state 1 inside `\d+`,
state 2 inside `\.?\d*`).  A `$` not followed by a digit is kept. -/
def subDollarAux : Nat → List Char → List Char
  | _, [] => []
  | 1, c :: cs =>
    if c.isDigit then subDollarAux 1 cs
    else if c = '.' then subDollarAux 2 cs
    else if c = '$' then
      match cs with
      | [] => ['$']
      | d :: ds => if d.isDigit then subDollarAux 1 ds else '$' :: subDollarAux 0 (d :: ds)
    else c :: subDollarAux 0 cs
  | _ + 2, c :: cs =>
    if c.isDigit then subDollarAux 2 cs
    else if c = '$' then
      match cs with
      | [] => ['$']
      | d :: ds => if d.isDigit then subDollarAux 1 ds else '$' :: subDollarAux 0 (d :: ds)
    else c :: subDollarAux 0 cs
  | 0, c :: cs =>
    if c = '$' then
      match cs with
      | [] => ['$']
      | d :: ds => if d.isDigit then subDollarAux 1 ds else '$' :: subDollarAux 0 (d :: ds)
    else c :: subDollarAux 0 cs

/-- Python `re.sub(r'\$\d+\.?\d*', '', s)`. -/
def subDollarNum (s : List Char) : List Char :=
  subDollarAux 0 s

/-- The body of the `for line in lines` loop of `parse_menu_items`:
`line.strip()`; keep only truthy lines with `len(line) > 3`; remove
currency amounts, then bare numbers; `strip(' .-')`; keep the result if
non-empty. -/
def clean_line (line : List Char) : Option (List Char) :=
  let l := pyStrip line
  if l ≠ [] ∧ 3 < l.length then
    let cleaned := stripDotDash (subNum (subDollarNum l))
    if cleaned ≠ [] then some cleaned else none
  else none

/-- `parse_menu_items` from `src/app.py`: split the text on newlines and
run the cleaning loop, appending each surviving cleaned line in order. -/
def parse_menu_items (text : List Char) : List (List Char) :=
  (splitNl text).foldl
    (fun items line =>
      match clean_line line with
      | some cleaned => items ++ [cleaned]
      | none => items)
    []

/-- `String`-level view of the normalizer, the specification's
`normalize(text) -> ordered sequence of string`. -/
def normalize (s : String) : List String :=
  (parse_menu_items s.data).map List.asString

/-- One element of `response.generated_images` in
`generate_image_with_imagen`: its `.image` field may be absent. -/
structure GeneratedImage (Img : Type) where
  image : Option Img

/-- The response shape consumed by `generate_image_with_imagen`. -/
structure ImagenResponse (Img : Type) where
  generated_images : List (GeneratedImage Img)

/-- `generate_food_image_prompt` from `src/app.py`: the fixed f-string
template around the item name. -/
def generate_food_image_prompt (item_name : String) : String :=
  "Create a high-quality, appetizing photograph of " ++ item_name ++
    ". \n    The image should be professionally styled, well-lit, and show the dish in an appealing way. \n    Make it look like a restaurant-quality presentation with good composition and natural lighting.\n    The food should look fresh, delicious, and inviting."

/-- `generate_image_with_imagen` from `src/app.py`.  The remote call
`client.models.generate_image` is the oracle `callModel`, which either
returns a response or raises (`Except.error`).  The `try/except` returns
`None` on an exception; otherwise the first truthy `.image` among
`response.generated_images` is returned, or `None` if there is none. -/
def generate_image_with_imagen {Img E : Type}
    (callModel : String → Except E (ImagenResponse Img)) (prompt : String) :
    Option Img :=
  match callModel prompt with
  | Except.error _ => none
  | Except.ok response => response.generated_images.findSome? (fun g => g.image)

/-- The generation loop of `process_menu_items` from `src/app.py`: one
prompt construction and one `generate_image_with_imagen` call per menu
item, in order; each item's result (image or `none`, the latter reported
as a per-item error message) is displayed next to the item. -/
def process_menu_items {Img E : Type}
    (callModel : String → Except E (ImagenResponse Img))
    (menu_items : List String) : List (String × Option Img) :=
  menu_items.map (fun item =>
    (item, generate_image_with_imagen callModel (generate_food_image_prompt item)))


/-! ## The loop is a `filterMap` over the split lines -/

theorem foldl_clean_eq_filterMap (ls : List (List Char)) :
    ∀ acc : List (List Char),
      ls.foldl (fun items line =>
        match clean_line line with
        | some cleaned => items ++ [cleaned]
        | none => items) acc = acc ++ ls.filterMap clean_line := by
  induction ls with
  | nil => intro acc; simp
  | cons l ls ih =>
    intro acc
    cases h : clean_line l with
    | none => simp [List.foldl_cons, h, ih acc, List.filterMap_cons]
    | some c =>
      simp [List.foldl_cons, h, ih (acc ++ [c]), List.filterMap_cons]

theorem parse_menu_items_eq_filterMap (t : List Char) :
    parse_menu_items t = (splitNl t).filterMap clean_line := by
  simpa using foldl_clean_eq_filterMap (splitNl t) []

/-! ## Sublist and membership facts about the automata and strips -/

theorem subNumAux_sublist (l : List Char) : ∀ st : Nat, List.Sublist (subNumAux st l) l := by
  induction l with
  | nil => intro st; match st with
    | 0 => simp [subNumAux]
    | 1 => simp [subNumAux]
    | _ + 2 => simp [subNumAux]
  | cons c cs ih =>
    intro st
    match st with
    | 0 =>
      simp only [subNumAux]
      split
      · exact (ih 1).cons c
      · exact (ih 0).cons₂ c
    | 1 =>
      simp only [subNumAux]
      split
      · exact (ih 1).cons c
      · split
        · exact (ih 2).cons c
        · exact (ih 0).cons₂ c
    | st + 2 =>
      simp only [subNumAux]
      split
      · exact (ih 2).cons c
      · exact (ih 0).cons₂ c

theorem mem_subNumAux_not_digit (l : List Char) :
    ∀ (st : Nat) (c : Char), c ∈ subNumAux st l → c.isDigit = false := by
  induction l with
  | nil => intro st c hc; match st with
    | 0 => simp [subNumAux] at hc
    | 1 => simp [subNumAux] at hc
    | _ + 2 => simp [subNumAux] at hc
  | cons d cs ih =>
    intro st c hc
    match st with
    | 0 =>
      simp only [subNumAux] at hc
      split at hc
      · exact ih 1 c hc
      · rcases List.mem_cons.mp hc with h | h
        · subst h; rename_i hd; simpa using hd
        · exact ih 0 c h
    | 1 =>
      simp only [subNumAux] at hc
      split at hc
      · exact ih 1 c hc
      · split at hc
        · exact ih 2 c hc
        · rcases List.mem_cons.mp hc with h | h
          · subst h; rename_i hdig hdot; simpa using hdig
          · exact ih 0 c h
    | st + 2 =>
      simp only [subNumAux] at hc
      split at hc
      · exact ih 2 c hc
      · rcases List.mem_cons.mp hc with h | h
        · subst h; rename_i hd; simpa using hd
        · exact ih 0 c h

theorem subDollarAux_sublist_aux :
    ∀ (n : Nat) (l : List Char), l.length ≤ n →
      ∀ st : Nat, List.Sublist (subDollarAux st l) l := by
  intro n
  induction n with
  | zero =>
    intro l hl st
    have hln : l = [] := List.eq_nil_of_length_eq_zero (Nat.le_zero.mp hl)
    subst hln
    match st with
    | 0 => exact List.nil_sublist _
    | 1 => exact List.nil_sublist _
    | _ + 2 => exact List.nil_sublist _
  | succ n ihn =>
    intro l hl st
    match l with
    | [] =>
      match st with
      | 0 => exact List.nil_sublist _
      | 1 => exact List.nil_sublist _
      | _ + 2 => exact List.nil_sublist _
    | c :: cs =>
      have hcs : cs.length ≤ n := by
        simp only [List.length_cons] at hl; omega
      match st with
      | 0 =>
        rw [subDollarAux.eq_def]
        simp only []
        split
        · rename_i hc
          subst hc
          cases cs with
          | nil => exact List.Sublist.refl _
          | cons d ds =>
            have hds : ds.length ≤ n := by
              simp only [List.length_cons] at hcs; omega
            show List.Sublist
              (if d.isDigit = true then subDollarAux 1 ds else '$' :: subDollarAux 0 (d :: ds))
              ('$' :: d :: ds)
            split
            · exact ((ihn ds hds 1).cons d).cons '$'
            · exact (ihn (d :: ds) hcs 0).cons₂ '$'
        · exact (ihn cs hcs 0).cons₂ c
      | 1 =>
        rw [subDollarAux.eq_def]
        simp only []
        split
        · exact (ihn cs hcs 1).cons c
        · split
          · exact (ihn cs hcs 2).cons c
          · split
            · rename_i hc
              subst hc
              cases cs with
              | nil => exact List.Sublist.refl _
              | cons d ds =>
                have hds : ds.length ≤ n := by
                  simp only [List.length_cons] at hcs; omega
                show List.Sublist
                  (if d.isDigit = true then subDollarAux 1 ds else '$' :: subDollarAux 0 (d :: ds))
                  ('$' :: d :: ds)
                split
                · exact ((ihn ds hds 1).cons d).cons '$'
                · exact (ihn (d :: ds) hcs 0).cons₂ '$'
            · exact (ihn cs hcs 0).cons₂ c
      | m + 2 =>
        rw [subDollarAux.eq_def]
        simp only []
        split
        · exact (ihn cs hcs 2).cons c
        · split
          · rename_i hc
            subst hc
            cases cs with
            | nil => exact List.Sublist.refl _
            | cons d ds =>
              have hds : ds.length ≤ n := by
                simp only [List.length_cons] at hcs; omega
              show List.Sublist
                (if d.isDigit = true then subDollarAux 1 ds else '$' :: subDollarAux 0 (d :: ds))
                ('$' :: d :: ds)
              split
              · exact ((ihn ds hds 1).cons d).cons '$'
              · exact (ihn (d :: ds) hcs 0).cons₂ '$'
          · exact (ihn cs hcs 0).cons₂ c

theorem subDollarAux_sublist (l : List Char) (st : Nat) :
    List.Sublist (subDollarAux st l) l :=
  subDollarAux_sublist_aux l.length l (Nat.le_refl _) st

/-! ## The substitutions fix strings with no digits -/

theorem subNumAux_eq_self (l : List Char) (h : ∀ c ∈ l, c.isDigit = false) :
    subNumAux 0 l = l := by
  induction l with
  | nil => simp [subNumAux]
  | cons c cs ih =>
    have hc : c.isDigit = false := h c (List.mem_cons_self c cs)
    simp only [subNumAux, hc]
    simp [ih (fun x hx => h x (List.mem_cons_of_mem c hx))]

theorem subDollarAux_eq_self (l : List Char) (h : ∀ c ∈ l, c.isDigit = false) :
    subDollarAux 0 l = l := by
  induction l with
  | nil => rfl
  | cons c cs ih =>
    have ihcs := ih (fun x hx => h x (List.mem_cons_of_mem c hx))
    rw [subDollarAux.eq_def]
    simp only []
    split
    · rename_i hc
      subst hc
      cases cs with
      | nil => rfl
      | cons d ds =>
        have hd : d.isDigit = false :=
          h d (List.mem_cons_of_mem '$' (List.mem_cons_self d ds))
        simp only [hd]
        simp [ihcs]
    · rw [ihcs]

/-! ## Boundary behaviour of the strips -/

theorem dropWhile_head_false (p : Char → Bool) (l : List Char) {c : Char}
    {r : List Char} (h : l.dropWhile p = c :: r) : p c = false := by
  induction l with
  | nil => simp at h
  | cons a t ih =>
    rw [List.dropWhile_cons] at h
    split at h
    · exact ih h
    · rename_i ha
      injection h with h1 h2
      subst h1
      simpa using ha

theorem rstripBy_eq_append (p : Char → Bool) (l : List Char) :
    l = rstripBy p l ++ (List.takeWhile p l.reverse).reverse := by
  have h := List.takeWhile_append_dropWhile (p := p) (l := l.reverse)
  calc l = l.reverse.reverse := (List.reverse_reverse l).symm
    _ = (List.takeWhile p l.reverse ++ List.dropWhile p l.reverse).reverse := by
        rw [h]
    _ = (List.dropWhile p l.reverse).reverse ++ (List.takeWhile p l.reverse).reverse := by
        rw [List.reverse_append]
    _ = rstripBy p l ++ (List.takeWhile p l.reverse).reverse := rfl

theorem stripBy_head_false (p : Char → Bool) (l : List Char) {c : Char}
    (h : (stripBy p l).head? = some c) : p c = false := by
  have heq : lstripBy p l = stripBy p l ++ (List.takeWhile p (lstripBy p l).reverse).reverse :=
    rstripBy_eq_append p (lstripBy p l)
  cases hs : stripBy p l with
  | nil => rw [hs] at h; simp at h
  | cons a r =>
    rw [hs] at h
    simp only [List.head?_cons, Option.some_inj] at h
    subst h
    rw [hs, List.cons_append] at heq
    exact dropWhile_head_false p l heq

theorem stripBy_getLast_false (p : Char → Bool) (l : List Char) {c : Char}
    (h : (stripBy p l).getLast? = some c) : p c = false := by
  unfold stripBy rstripBy at h
  rw [List.getLast?_reverse] at h
  cases hx : List.dropWhile p (lstripBy p l).reverse with
  | nil => rw [hx] at h; simp at h
  | cons a r =>
    rw [hx] at h
    simp only [List.head?_cons, Option.some_inj] at h
    subst h
    exact dropWhile_head_false p (lstripBy p l).reverse hx

theorem stripBy_eq_self (p : Char → Bool) (l : List Char)
    (h1 : ∀ c, l.head? = some c → p c = false)
    (h2 : ∀ c, l.getLast? = some c → p c = false) : stripBy p l = l := by
  have hl : lstripBy p l = l := by
    cases l with
    | nil => rfl
    | cons a t =>
      have ha : p a = false := h1 a rfl
      have hna : ¬p a = true := by simp [ha]
      unfold lstripBy
      rw [List.dropWhile_cons_of_neg hna]
  unfold stripBy
  rw [hl]
  unfold rstripBy
  cases hr : l.reverse with
  | nil =>
    have : l = [] := List.reverse_eq_nil_iff.mp hr
    subst this
    rfl
  | cons b t =>
    have hb : l.getLast? = some b := by
      rw [← List.head?_reverse, hr, List.head?_cons]
    have hpb : p b = false := h2 b hb
    have hnb : ¬p b = true := by simp [hpb]
    rw [List.dropWhile_cons_of_neg hnb, ← hr, List.reverse_reverse]

/-! ## Lines produced by the split -/

theorem splitNl_cons (c : Char) (cs : List Char) :
    splitNl (c :: cs) =
      if c = '\n' then [] :: splitNl cs
      else
        match splitNl cs with
        | [] => [[c]]
        | l :: ls => (c :: l) :: ls := rfl

theorem splitNl_ne_nil (t : List Char) : splitNl t ≠ [] := by
  cases t with
  | nil => exact fun h => List.noConfusion h
  | cons c cs =>
    rw [splitNl_cons]
    split
    · exact fun h => List.noConfusion h
    · cases h : splitNl cs with
      | nil => exact fun h2 => List.noConfusion h2
      | cons l ls => exact fun h2 => List.noConfusion h2

theorem mem_splitNl_no_newline (t : List Char) :
    ∀ l ∈ splitNl t, '\n' ∉ l := by
  induction t with
  | nil =>
    intro l hl
    simp only [splitNl, List.mem_singleton] at hl
    subst hl
    simp
  | cons c cs ih =>
    intro l hl
    by_cases hc : c = '\n'
    · subst hc
      have he : splitNl ('\n' :: cs) = [] :: splitNl cs := by
        rw [splitNl_cons]; simp
      rw [he] at hl
      rcases List.mem_cons.mp hl with h | h
      · subst h; simp
      · exact ih l h
    · cases hs : splitNl cs with
      | nil => exact absurd hs (splitNl_ne_nil cs)
      | cons m ms =>
        have he : splitNl (c :: cs) = (c :: m) :: ms := by
          rw [splitNl_cons, if_neg hc, hs]
        rw [he] at hl
        rcases List.mem_cons.mp hl with h | h
        · subst h
          intro hmem
          rcases List.mem_cons.mp hmem with h2 | h2
          · exact hc h2.symm
          · exact ih m (by rw [hs]; exact List.mem_cons_self m ms) h2
        · exact ih l (by rw [hs]; exact List.mem_cons_of_mem m h)

theorem splitNl_no_newline {a : List Char} (h : '\n' ∉ a) : splitNl a = [a] := by
  induction a with
  | nil => rfl
  | cons c cs ih =>
    have hc : ¬(c = '\n') := fun he => h (by rw [he]; exact List.mem_cons_self _ _)
    have hcs : '\n' ∉ cs := fun hm => h (List.mem_cons_of_mem c hm)
    rw [splitNl_cons, if_neg hc, ih hcs]

theorem splitNl_append {a : List Char} (r : List Char) (h : '\n' ∉ a) :
    splitNl (a ++ '\n' :: r) = a :: splitNl r := by
  induction a with
  | nil =>
    simp only [List.nil_append]
    rw [splitNl_cons]
    simp
  | cons c cs ih =>
    have hc : ¬(c = '\n') := fun he => h (by rw [he]; exact List.mem_cons_self _ _)
    have hcs : '\n' ∉ cs := fun hm => h (List.mem_cons_of_mem c hm)
    rw [List.cons_append, splitNl_cons, if_neg hc, ih hcs]

/-! ## filterMap helpers -/

theorem filterMap_eq_self_of_mem {α : Type} (f : α → Option α) (l : List α)
    (h : ∀ x ∈ l, f x = some x) : l.filterMap f = l := by
  induction l with
  | nil => rfl
  | cons a t ih =>
    rw [List.filterMap_cons_some (h a (List.mem_cons_self a t))]
    rw [ih (fun x hx => h x (List.mem_cons_of_mem a hx))]

theorem pair_getElem_sublist {α : Type} (l : List α) (i j : Nat) (hij : i < j)
    (hj : j < l.length) : List.Sublist [l[i], l[j]] l := by
  induction l generalizing i j with
  | nil => simp at hj
  | cons a t ih =>
    cases i with
    | zero =>
      cases j with
      | zero => omega
      | succ m =>
        have hm : m < t.length := by simpa using hj
        simp only [List.getElem_cons_zero, List.getElem_cons_succ]
        apply List.Sublist.cons₂
        exact List.singleton_sublist.mpr (List.getElem_mem hm)
    | succ k =>
      cases j with
      | zero => omega
      | succ m =>
        have h2 : m < t.length := by simpa using hj
        have h1 : k < m := by omega
        simp only [List.getElem_cons_succ]
        exact (ih k m h1 h2).cons a

/-! ## Properties of a cleaned line -/

theorem stripBy_sublist (p : Char → Bool) (l : List Char) :
    List.Sublist (stripBy p l) l := by
  unfold stripBy rstripBy lstripBy
  have h1 := List.dropWhile_sublist (p := p) (l := l)
  have h2 := List.dropWhile_sublist (p := p) (l := (l.dropWhile p).reverse)
  have h3 := h2.reverse
  rw [List.reverse_reverse] at h3
  exact h3.trans h1

theorem clean_line_eq_some {line c : List Char} (h : clean_line line = some c) :
    c = stripDotDash (subNum (subDollarNum (pyStrip line))) ∧ c ≠ [] ∧
      pyStrip line ≠ [] ∧ 3 < (pyStrip line).length := by
  simp only [clean_line] at h
  split at h
  · rename_i hcond
    split at h
    · rename_i hne
      injection h with h
      exact ⟨h.symm, h ▸ hne, hcond.1, hcond.2⟩
    · cases h
  · cases h

theorem clean_line_props {line c : List Char} (h : clean_line line = some c) :
    List.Sublist c line ∧ c ≠ [] ∧ (∀ x ∈ c, x.isDigit = false) ∧
      (∀ x, c.head? = some x → isStripSetChar x = false) ∧
      (∀ x, c.getLast? = some x → isStripSetChar x = false) := by
  obtain ⟨hc, hne, hsne, hlen⟩ := clean_line_eq_some h
  refine ⟨?_, hne, ?_, ?_, ?_⟩
  · rw [hc]
    exact ((((stripBy_sublist _ _).trans
      (subNumAux_sublist _ 0)).trans
      (subDollarAux_sublist _ 0)).trans
      (stripBy_sublist _ _))
  · intro x hx
    rw [hc] at hx
    have hx2 : x ∈ subNum (subDollarNum (pyStrip line)) :=
      (stripBy_sublist _ _).subset hx
    exact mem_subNumAux_not_digit _ 0 x hx2
  · intro x hx
    rw [hc] at hx
    exact stripBy_head_false _ _ hx
  · intro x hx
    rw [hc] at hx
    exact stripBy_getLast_false _ _ hx

theorem clean_line_fixpoint {l : List Char} (hlen : 3 < l.length)
    (hstrip : pyStrip l = l) (hdig : ∀ x ∈ l, x.isDigit = false)
    (hhead : ∀ x, l.head? = some x → isStripSetChar x = false)
    (hlast : ∀ x, l.getLast? = some x → isStripSetChar x = false) :
    clean_line l = some l := by
  have hne : l ≠ [] := by
    intro he; subst he; simp at hlen
  have h1 : subDollarNum l = l := subDollarAux_eq_self l hdig
  have h2 : subNum l = l := subNumAux_eq_self l hdig
  have h3 : stripDotDash l = l := stripBy_eq_self _ l hhead hlast
  simp only [clean_line, hstrip, h1, h2, h3]
  rw [if_pos ⟨hne, hlen⟩, if_pos hne]

/-! ## Membership in the parse result -/

theorem mem_parse_menu_items {t : List Char} {c : List Char}
    (h : c ∈ parse_menu_items t) :
    ∃ line, line ∈ splitNl t ∧ clean_line line = some c := by
  rw [parse_menu_items_eq_filterMap] at h
  exact List.mem_filterMap.mp h

/-! ## Joining with a newline and splitting back -/

theorem data_asString (l : List Char) : (List.asString l).data = l :=
  List.toList_asString l

theorem intercalate_go_data (s : String) (as : List String) :
    ∀ acc : String,
      (String.intercalate.go acc s as).data =
        acc.data ++ (as.map (fun t => s.data ++ t.data)).flatten := by
  induction as with
  | nil => intro acc; simp [String.intercalate.go]
  | cons t ts ih =>
    intro acc
    have hgo : String.intercalate.go acc s (t :: ts) =
        String.intercalate.go (acc ++ s ++ t) s ts := rfl
    rw [hgo, ih]
    simp [List.append_assoc]

theorem intercalate_data_cons (a : String) (as : List String) :
    (String.intercalate "\n" (a :: as)).data =
      a.data ++ (as.map (fun t => '\n' :: t.data)).flatten := by
  have h : String.intercalate "\n" (a :: as) = String.intercalate.go a "\n" as := rfl
  rw [h, intercalate_go_data]
  rfl

theorem splitNl_flatten (as : List (List Char)) :
    ∀ a : List Char, '\n' ∉ a → (∀ b ∈ as, '\n' ∉ b) →
      splitNl (a ++ (as.map (fun b => '\n' :: b)).flatten) = a :: as := by
  induction as with
  | nil =>
    intro a h _
    simp [splitNl_no_newline h]
  | cons b bs ih =>
    intro a h hb
    simp only [List.map_cons, List.flatten_cons]
    have hre : a ++ (('\n' :: b) ++ (bs.map (fun x => '\n' :: x)).flatten) =
        a ++ '\n' :: (b ++ (bs.map (fun x => '\n' :: x)).flatten) := by simp
    rw [hre, splitNl_append _ h]
    rw [ih b (hb b (List.mem_cons_self b bs)) (fun x hx => hb x (List.mem_cons_of_mem b hx))]

/-! # Claims -/

/-- Claim C3: `normalize "1. Grilled Chicken - 250"` returns exactly
`["Grilled Chicken"]`: the leading item number and trailing price number
are removed, and the boundary period and hyphen are stripped. -/
theorem normalize_grilled_chicken :
    normalize "1. Grilled Chicken - 250" = ["Grilled Chicken"] := by decide

/-- Claim C2, counterexample: the claimed evaluation
`normalize "Tea\nTea" = ["Tea", "Tea"]` is false on the code: each line
`"Tea"` has length 3 and the filter keeps only lines of length
strictly greater than 3. -/
theorem normalize_tea_tea_cex :
    normalize "Tea\nTea" ≠ ["Tea", "Tea"] := by decide

/-- Claim C2, amended: identical cleaned names on separate lines are both
kept (no deduplication) when they survive the length filter, as in
`normalize "Chai\nChai" = ["Chai", "Chai"]`; the original example
`"Tea\nTea"` instead yields `[]` because each line has length 3. -/
theorem normalize_no_dedup :
    normalize "Chai\nChai" = ["Chai", "Chai"] ∧ normalize "Tea\nTea" = [] := by
  decide

/-- Claim C10: the length filter applies to the trimmed original line
(here `"Tea $4.50"`, of length 9) before price and number removal, so
the output can contain an item of length at most 3. -/
theorem normalize_length_filter_before_cleaning :
    normalize "Tea $4.50" = ["Tea"] ∧ ("Tea" : String).length ≤ 3 := by decide

/-- Claim C4: the normalizer is total: every string input, including the
empty string, yields an output sequence; there are no error conditions
(every operation used by `parse_menu_items` is total). -/
theorem normalize_total (s : String) :
    ∃ items : List String, normalize s = items :=
  ⟨normalize s, rfl⟩

/-- Claim C8: the normalizer is deterministic and pure: two invocations
on the same input string produce identical output sequences; `normalize`
depends on nothing but its input. -/
theorem normalize_deterministic (s₁ s₂ : String) (h : s₁ = s₂) :
    normalize s₁ = normalize s₂ := by rw [h]

/-- Witness for `normalize_deterministic` at a concrete input. -/
theorem normalize_deterministic_witness :
    normalize "Pizza $12.99" = normalize "Pizza $12.99" :=
  normalize_deterministic "Pizza $12.99" "Pizza $12.99" rfl

/-- Claim C6: `normalize ""` and `normalize "   \n   \n"` are empty and,
in general, any input whose every line trims to length at most 3
normalizes to the empty sequence. -/
theorem normalize_short_lines_empty :
    normalize "" = [] ∧ normalize "   \n   \n" = [] ∧
      ∀ s : String, (∀ l ∈ splitNl s.data, (pyStrip l).length ≤ 3) →
        normalize s = [] := by
  refine ⟨by decide, by decide, ?_⟩
  intro s h
  unfold normalize
  rw [parse_menu_items_eq_filterMap]
  rw [List.filterMap_eq_nil_iff.mpr ?_]
  · rfl
  · intro l hl
    have hlen := h l hl
    have hnc : ¬(pyStrip l ≠ [] ∧ 3 < (pyStrip l).length) :=
      fun hc => absurd hc.2 (by omega)
    simp only [clean_line]
    rw [if_neg hnc]

/-- Witness for `normalize_short_lines_empty` at a concrete input whose
lines all trim to length at most 3. -/
theorem normalize_short_lines_empty_witness : normalize "ab\ncd" = [] :=
  normalize_short_lines_empty.2.2 "ab\ncd" (by decide)

/-- Claim C9, counterexample: the output is not dollar-sign free: a `$`
not immediately followed by a digit survives both substitutions, as in
`normalize "Tea $ 4.50" = ["Tea $"]`. -/
theorem normalize_dollar_cex :
    ¬(∀ t ∈ normalize "Tea $ 4.50", '$' ∉ t.data) := by decide

/-- Claim C9, amended: every output item of `normalize` is non-empty,
contains no digit characters, and neither begins nor ends with a space,
period, or hyphen.  (A dollar sign can survive, so that part of the
original claim is dropped.) -/
theorem normalize_output_invariant (s : String) :
    ∀ t ∈ normalize s, t ≠ "" ∧ (∀ c ∈ t.data, c.isDigit = false) ∧
      (∀ c, t.data.head? = some c → ¬(c = ' ' ∨ c = '.' ∨ c = '-')) ∧
      (∀ c, t.data.getLast? = some c → ¬(c = ' ' ∨ c = '.' ∨ c = '-')) := by
  intro t ht
  unfold normalize at ht
  obtain ⟨l, hl, rfl⟩ := List.mem_map.mp ht
  obtain ⟨line, hline, hcl⟩ := mem_parse_menu_items hl
  obtain ⟨hsub, hne, hdig, hhead, hlast⟩ := clean_line_props hcl
  refine ⟨?_, ?_, ?_, ?_⟩
  · intro he
    exact hne (by rw [← data_asString l, he])
  · rw [data_asString]
    exact hdig
  · rw [data_asString]
    intro c hc
    have hf := hhead c hc
    simp [isStripSetChar] at hf
    rintro (h | h | h)
    · exact hf.1.1 h
    · exact hf.1.2 h
    · exact hf.2 h
  · rw [data_asString]
    intro c hc
    have hf := hlast c hc
    simp [isStripSetChar] at hf
    rintro (h | h | h)
    · exact hf.1.1 h
    · exact hf.1.2 h
    · exact hf.2 h

/-- Witness for `normalize_output_invariant` at the item `"Pizza"` of
`normalize "Pizza $12.99"`. -/
theorem normalize_output_invariant_witness :
    ("Pizza" : String) ≠ "" ∧
      (∀ c ∈ ("Pizza" : String).data, c.isDigit = false) ∧
      (∀ c, ("Pizza" : String).data.head? = some c →
        ¬(c = ' ' ∨ c = '.' ∨ c = '-')) ∧
      (∀ c, ("Pizza" : String).data.getLast? = some c →
        ¬(c = ' ' ∨ c = '.' ∨ c = '-')) :=
  normalize_output_invariant "Pizza $12.99" "Pizza" (by decide)

/-- Claim C5: order preservation: if lines at positions `i < j` of the
split input both clean to surviving items `a` and `b`, then `a` precedes
`b` in the output, and the whole output is the source-ordered
`filterMap` of the cleaning step over the split lines. -/
theorem normalize_order_preserving (s : String) (i j : Nat) (a b : List Char)
    (hij : i < j) (hj : j < (splitNl s.data).length)
    (ha : clean_line (splitNl s.data)[i] = some a)
    (hb : clean_line (splitNl s.data)[j] = some b) :
    List.Sublist [List.asString a, List.asString b] (normalize s) ∧
      normalize s = ((splitNl s.data).filterMap clean_line).map List.asString := by
  have heq : normalize s =
      ((splitNl s.data).filterMap clean_line).map List.asString := by
    unfold normalize
    rw [parse_menu_items_eq_filterMap]
  refine ⟨?_, heq⟩
  have hpair := pair_getElem_sublist (splitNl s.data) i j hij hj
  have hfm := hpair.filterMap clean_line
  have hcomp : List.filterMap clean_line
      [(splitNl s.data)[i], (splitNl s.data)[j]] = [a, b] := by
    rw [List.filterMap_cons_some ha, List.filterMap_cons_some hb]
    rfl
  rw [hcomp] at hfm
  rw [heq]
  exact hfm.map List.asString

/-- Witness for `normalize_order_preserving`: in
`"Pizza $1\nSoda $2"` the cleaned first line precedes the cleaned
second line in the output. -/
theorem normalize_order_preserving_witness :
    List.Sublist [List.asString ("Pizza" : String).data,
        List.asString ("Soda" : String).data]
      (normalize "Pizza $1\nSoda $2") ∧
      normalize "Pizza $1\nSoda $2" =
        ((splitNl ("Pizza $1\nSoda $2" : String).data).filterMap
          clean_line).map List.asString :=
  normalize_order_preserving "Pizza $1\nSoda $2" 0 1
    ("Pizza" : String).data ("Soda" : String).data
    (by decide) (by decide) (by decide) (by decide)

/-- Claim C1, counterexample: the normalizer is not idempotent on all
strings: `normalize "Tea $4.50" = ["Tea"]`, but re-normalizing the join
drops `"Tea"` (length 3), so
`normalize (join (normalize s)) ≠ normalize s` at `s = "Tea $4.50"`. -/
theorem normalize_join_not_idempotent :
    normalize (String.intercalate "\n" (normalize "Tea $4.50")) ≠
      normalize "Tea $4.50" := by decide

/-- Claim C1, amended: the normalizer is idempotent on every input whose
output items are themselves clean inputs, that is, each produced item
has length strictly greater than 3 and no leading or trailing
whitespace; then `normalize (join "\n" (normalize s)) = normalize s`. -/
theorem normalize_join_idempotent (s : String)
    (h : ∀ t ∈ normalize s, 3 < t.length ∧ pyStrip t.data = t.data) :
    normalize (String.intercalate "\n" (normalize s)) = normalize s := by
  have key : ∀ l ∈ parse_menu_items s.data, clean_line l = some l := by
    intro l hl
    obtain ⟨line, hline, hcl⟩ := mem_parse_menu_items hl
    obtain ⟨hsub, hne, hdig, hhead, hlast⟩ := clean_line_props hcl
    have hmem : List.asString l ∈ normalize s := by
      unfold normalize
      exact List.mem_map_of_mem _ hl
    obtain ⟨hlen, hstrip⟩ := h _ hmem
    rw [data_asString] at hstrip
    rw [List.length_asString] at hlen
    exact clean_line_fixpoint hlen hstrip hdig hhead hlast
  have hnn : ∀ l ∈ parse_menu_items s.data, '\n' ∉ l := by
    intro l hl
    obtain ⟨line, hline, hcl⟩ := mem_parse_menu_items hl
    obtain ⟨hsub, -, -, -, -⟩ := clean_line_props hcl
    intro hmem
    exact mem_splitNl_no_newline s.data line hline (hsub.subset hmem)
  cases hp : parse_menu_items s.data with
  | nil =>
    have h0 : normalize s = [] := by
      unfold normalize
      rw [hp]
      rfl
    rw [h0]
    decide
  | cons a as =>
    have h0 : normalize s = List.asString a :: as.map List.asString := by
      unfold normalize
      rw [hp]
      rfl
    rw [h0]
    have hdata : (String.intercalate "\n"
          (List.asString a :: as.map List.asString)).data =
        a ++ (as.map (fun b => '\n' :: b)).flatten := by
      rw [intercalate_data_cons]
      rw [data_asString, List.map_map]
      exact congrArg (fun ys => a ++ List.flatten ys)
        (List.map_congr_left (fun x hx => by simp [Function.comp, data_asString]))
    have hsplit : splitNl (String.intercalate "\n"
          (List.asString a :: as.map List.asString)).data = a :: as := by
      rw [hdata]
      exact splitNl_flatten as a
        (hnn a (by rw [hp]; exact List.mem_cons_self _ _))
        (fun b hb => hnn b (by rw [hp]; exact List.mem_cons_of_mem a hb))
    unfold normalize
    rw [parse_menu_items_eq_filterMap, hsplit]
    rw [filterMap_eq_self_of_mem clean_line (a :: as)
      (fun x hx => key x (by rw [hp]; exact hx))]
    rfl

/-- Witness for `normalize_join_idempotent` at a concrete input whose
items (`"Pizza"`, `"Soda"`) are longer than 3 characters and fully
stripped. -/
theorem normalize_join_idempotent_witness :
    (∀ t ∈ normalize "Pizza $12.99\nSoda $2",
        3 < t.length ∧ pyStrip t.data = t.data) ∧
      normalize (String.intercalate "\n" (normalize "Pizza $12.99\nSoda $2")) =
        normalize "Pizza $12.99\nSoda $2" :=
  ⟨by decide, normalize_join_idempotent "Pizza $12.99\nSoda $2" (by decide)⟩

/-- Claim C7: continue on partial failure: in the batch generation loop,
every item gets its own result; the result at position `i` is exactly the
per-item generation outcome for that item (so failures of other items
cannot affect it), and an exception from the remote call yields a `none`
result for that item rather than a propagated error. -/
theorem process_menu_items_per_item {Img E : Type}
    (callModel : String → Except E (ImagenResponse Img))
    (menu_items : List String) (i : Nat) (h : i < menu_items.length) :
    (process_menu_items callModel menu_items).length = menu_items.length ∧
      (process_menu_items callModel menu_items)[i]? =
        some (menu_items[i],
          generate_image_with_imagen callModel
            (generate_food_image_prompt menu_items[i])) ∧
      (∀ p e, callModel p = Except.error e →
        generate_image_with_imagen callModel p = none) := by
  refine ⟨by simp [process_menu_items], ?_, ?_⟩
  · simp [process_menu_items, List.getElem?_eq_getElem h]
  · intro p e he
    simp [generate_image_with_imagen, he]

/-- Witness for `process_menu_items_per_item`: with an oracle that always
raises, the second item still gets its own (failed) result. -/
theorem process_menu_items_per_item_witness :
    (process_menu_items
        (fun _ => (Except.error () : Except Unit (ImagenResponse Unit)))
        ["Spaghetti Carbonara", "Lasagna"]).length = 2 ∧
      (process_menu_items
        (fun _ => (Except.error () : Except Unit (ImagenResponse Unit)))
        ["Spaghetti Carbonara", "Lasagna"])[1]? = some ("Lasagna", none) := by
  have h := process_menu_items_per_item
    (fun _ => (Except.error () : Except Unit (ImagenResponse Unit)))
    ["Spaghetti Carbonara", "Lasagna"] 1 (by decide)
  exact ⟨h.1.trans rfl, h.2.1⟩

end MenuApp
